import Mathlib

/-!
Verification of the `video-transcript` repository against its specification.

The development shallowly embeds the algorithmic parts of `main.py` and
`srtgen.py`:

* the caption segmentation loop `VideoCreation.add_captions_to_video`
  (Python strings are modelled as `List Char`, seconds as `ℚ`);
* the batch scheduler loop of `__main__` (worker completion is modelled by
  an oracle giving each worker a remaining running time, or marking it as
  crashed);
* the write-with-retry loop of `start_process`;
* the frame trimming formula of `start_process`;
* the SRT formatting of `SRTGenerator`.
-/

namespace VideoTranscript

/-! ## Python string primitives

Python `str` values are modelled as `List Char`. -/

/-- Python whitespace test used by `str.strip` and `str.split` (ASCII part). -/
def pyIsSpace (c : Char) : Bool :=
  c == ' ' || c == '\t' || c == '\n' || c == '\r' || c == '\x0b' || c == '\x0c'

/-- Remove trailing whitespace, as the right half of Python `str.strip()`. -/
def stripRight (s : List Char) : List Char :=
  (s.reverse.dropWhile pyIsSpace).reverse

/-- Python `str.strip()` with no arguments: drop leading and trailing
whitespace. -/
def pyStrip (s : List Char) : List Char :=
  stripRight (s.dropWhile pyIsSpace)

/-- Python `word.endswith(('.', '!', '?'))` from the segmentation loop. -/
def endsSentence (s : List Char) : Bool :=
  match s.getLast? with
  | some c => c == '.' || c == '!' || c == '?'
  | none => false

/-- Whitespace tokenisation, as Python `str.split()` with no arguments:
the maximal runs of non-whitespace characters, in order.  `acc` holds the
characters of the token currently being read, reversed. -/
def tokensAux : List Char → List Char → List (List Char)
  | [], acc => if acc = [] then [] else [acc.reverse]
  | c :: cs, acc =>
    if pyIsSpace c then
      if acc = [] then tokensAux cs [] else acc.reverse :: tokensAux cs []
    else tokensAux cs (c :: acc)

/-- The whitespace-separated words of a string ("single-space
normalisation" identifies two strings exactly when their `tokens` agree). -/
def tokens (s : List Char) : List (List Char) :=
  tokensAux s []

/-- Join a list of strings with single spaces, as Python
`" ".join(texts)`. -/
def joinSpace : List (List Char) → List Char
  | [] => []
  | [t] => t
  | t :: ts => t ++ ' ' :: joinSpace ts

/-! ## The caption segmentation algorithm

Embeds `VideoCreation.add_captions_to_video` from `main.py`.  The source
builds, for each closed accumulator, `clip.subclip(start_time, end)` with
the overlay text `caption_text.strip()`; a caption segment is abstracted
as its start time, end time and text. -/

/-- A word-level timestamp as produced by `create_transcription`:
`{'timestamp': (word['start'], word['end']), 'text': word['text']}`. -/
structure Word where
  start : ℚ
  «end» : ℚ
  text : List Char
  deriving DecidableEq

/-- One emitted caption segment: the time range of the `subclip` together
with the overlay text passed to `add_text_to_video`.  `nwords` records
the value of the source variable `word_count` at the moment of emission
(the number of words accumulated into `text`). -/
structure CaptionSegment where
  start : ℚ
  «end» : ℚ
  text : List Char
  nwords : ℕ
  deriving DecidableEq

/-- The local constant `max_caption_words = 8` of
`add_captions_to_video`. -/
def max_caption_words : ℕ := 8

/-- The `for pos, timestamp in enumerate(timestamps)` loop of
`add_captions_to_video`, parametrised by the word cap.  State:
`startTime` is `start_time`, `captionText` is `caption_text`, `wordCount`
is `word_count`; the word's text is appended space-separated and the
counter incremented before the close test, so the test reads
`wordCount + 1`.  Returns the emitted segments together with the final
state. -/
def captionLoop (maxWords : ℕ) :
    List Word → ℚ → List Char → ℕ → List CaptionSegment × ℚ × List Char × ℕ
  | [], startTime, captionText, wordCount => ([], startTime, captionText, wordCount)
  | w :: ws, startTime, captionText, wordCount =>
    if maxWords ≤ wordCount + 1 ∨ endsSentence w.text then
      (⟨startTime, w.«end», pyStrip (captionText ++ ' ' :: w.text), wordCount + 1⟩ ::
        (captionLoop maxWords ws w.«end» [] 0).1,
       (captionLoop maxWords ws w.«end» [] 0).2)
    else
      captionLoop maxWords ws startTime (captionText ++ ' ' :: w.text) (wordCount + 1)

/-- `VideoCreation.add_captions_to_video`, abstracted to the list of
caption segments it emits.  `duration` is `clip.duration`.  An empty
timestamp list returns the original clip, i.e. no caption segments; after
the loop, a non-empty accumulator is flushed as a final segment running to
`clip.duration`. -/
def add_captions_to_video (timestamps : List Word) (duration : ℚ) :
    List CaptionSegment :=
  if timestamps = [] then []
  else if (captionLoop max_caption_words timestamps 0 [] 0).2.2.1 ≠ [] then
    (captionLoop max_caption_words timestamps 0 [] 0).1 ++
      [⟨(captionLoop max_caption_words timestamps 0 [] 0).2.1, duration,
        pyStrip (captionLoop max_caption_words timestamps 0 [] 0).2.2.1,
        (captionLoop max_caption_words timestamps 0 [] 0).2.2.2⟩]
  else
    (captionLoop max_caption_words timestamps 0 [] 0).1

/-! ## Lemmas about tokenisation and stripping -/

theorem tokens_nil : tokens [] = [] := rfl

theorem tokensAux_append_space (b : List Char) :
    ∀ (a acc : List Char),
      tokensAux (a ++ ' ' :: b) acc = tokensAux a acc ++ tokensAux b [] := by
  intro a
  induction a with
  | nil =>
    intro acc
    by_cases h : acc = [] <;> simp [tokensAux, h, pyIsSpace]
  | cons c a ih =>
    intro acc
    by_cases h : pyIsSpace c = true
    · by_cases h2 : acc = [] <;> simp [tokensAux, h, h2, ih]
    · simp [tokensAux, h, ih]

theorem tokens_append_space (a b : List Char) :
    tokens (a ++ ' ' :: b) = tokens a ++ tokens b :=
  tokensAux_append_space b a []

theorem tokensAux_all_space (u : List Char) (hu : ∀ c ∈ u, pyIsSpace c = true) :
    ∀ acc, tokensAux u acc = tokensAux [] acc := by
  induction u with
  | nil => intro acc; rfl
  | cons c u ih =>
    intro acc
    have hc : pyIsSpace c = true := hu c (List.mem_cons_self c u)
    have hrec := ih (fun x hx => hu x (List.mem_cons_of_mem c hx)) []
    by_cases h2 : acc = [] <;> simp [tokensAux, hc, h2, hrec]

theorem tokensAux_append_all_space (u : List Char)
    (hu : ∀ c ∈ u, pyIsSpace c = true) :
    ∀ (t acc : List Char), tokensAux (t ++ u) acc = tokensAux t acc := by
  intro t
  induction t with
  | nil => intro acc; simpa using tokensAux_all_space u hu acc
  | cons c t ih =>
    intro acc
    by_cases h : pyIsSpace c = true
    · by_cases h2 : acc = [] <;> simp [tokensAux, h, h2, ih]
    · simp [tokensAux, h, ih]

theorem tokens_dropWhile_space (s : List Char) :
    tokens (s.dropWhile pyIsSpace) = tokens s := by
  induction s with
  | nil => rfl
  | cons c s ih =>
    by_cases h : pyIsSpace c = true
    · simpa [List.dropWhile_cons, h, tokens, tokensAux] using ih
    · simp [List.dropWhile_cons, h]

theorem stripRight_append_eq (s : List Char) :
    stripRight s ++ (s.reverse.takeWhile pyIsSpace).reverse = s := by
  have h : s.reverse.takeWhile pyIsSpace ++ s.reverse.dropWhile pyIsSpace = s.reverse :=
    List.takeWhile_append_dropWhile pyIsSpace s.reverse
  rw [stripRight, ← List.reverse_append, h, List.reverse_reverse]

theorem tokens_stripRight (s : List Char) :
    tokens (stripRight s) = tokens s := by
  conv_rhs => rw [← stripRight_append_eq s]
  exact (tokensAux_append_all_space _
    (fun c hc => List.mem_takeWhile_imp (by simpa using hc)) _ []).symm

theorem tokens_pyStrip (s : List Char) : tokens (pyStrip s) = tokens s := by
  rw [pyStrip, tokens_stripRight, tokens_dropWhile_space]

theorem tokens_joinSpace (ts : List (List Char)) :
    tokens (joinSpace ts) = (ts.map tokens).flatten := by
  induction ts with
  | nil => rfl
  | cons t ts ih =>
    cases ts with
    | nil => simp [joinSpace, tokens, tokensAux]
    | cons u ts => simp [joinSpace, tokens_append_space, ih]

/-! ## Lemmas about `endsSentence` and `pyStrip` -/

theorem endsSentence_elim (s : List Char) (h : endsSentence s = true) :
    ∃ c, s.getLast? = some c ∧ (c = '.' ∨ c = '!' ∨ c = '?') := by
  unfold endsSentence at h
  cases hc : s.getLast? with
  | none => rw [hc] at h; exact absurd h (by simp)
  | some c =>
    rw [hc] at h
    exact ⟨c, rfl, by simpa [Bool.or_eq_true, or_assoc] using h⟩

theorem endsSentence_of_getLast? (s : List Char) (c : Char)
    (hc : s.getLast? = some c) (h : c = '.' ∨ c = '!' ∨ c = '?') :
    endsSentence s = true := by
  unfold endsSentence
  rw [hc]
  rcases h with h | h | h <;> simp [h]

theorem endsSentence_append (a w : List Char) (h : endsSentence w = true) :
    endsSentence (a ++ w) = true := by
  obtain ⟨c, hc, hp⟩ := endsSentence_elim w h
  have hw : w ≠ [] := by rintro rfl; simp at hc
  exact endsSentence_of_getLast? _ c (by rw [List.getLast?_append_of_ne_nil a hw, hc]) hp

theorem stripRight_of_getLast?_not_space (s : List Char) (c : Char)
    (hc : s.getLast? = some c) (hsp : pyIsSpace c = false) :
    stripRight s = s := by
  have hrev : s.reverse.head? = some c := by rw [List.head?_reverse, hc]
  cases hs : s.reverse with
  | nil => rw [hs] at hrev; exact absurd hrev (by simp)
  | cons d t =>
    rw [hs] at hrev
    have hd : d = c := by simpa using hrev
    subst hd
    rw [stripRight, hs, List.dropWhile_cons, hsp]
    simp [← hs]

theorem dropWhile_space_ne_nil (s : List Char) (c : Char)
    (hc : s.getLast? = some c) (hsp : pyIsSpace c = false) :
    s.dropWhile pyIsSpace ≠ [] := by
  intro hnil
  have hall : s.takeWhile pyIsSpace = s := by
    have := List.takeWhile_append_dropWhile pyIsSpace s
    rwa [hnil, List.append_nil] at this
  have hmem : c ∈ s := List.mem_of_mem_getLast? (by rw [hc]; rfl)
  have : pyIsSpace c = true := List.mem_takeWhile_imp (by rwa [hall])
  rw [this] at hsp
  exact absurd hsp (by simp)

theorem endsSentence_pyStrip (s : List Char) (h : endsSentence s = true) :
    endsSentence (pyStrip s) = true := by
  obtain ⟨c, hc, hp⟩ := endsSentence_elim s h
  have hsp : pyIsSpace c = false := by
    rcases hp with rfl | rfl | rfl <;> rfl
  have hne := dropWhile_space_ne_nil s c hc hsp
  have hlast : (s.dropWhile pyIsSpace).getLast? = some c := by
    have hsplit := List.takeWhile_append_dropWhile pyIsSpace s
    calc (s.dropWhile pyIsSpace).getLast?
        = (s.takeWhile pyIsSpace ++ s.dropWhile pyIsSpace).getLast? :=
          (List.getLast?_append_of_ne_nil _ hne).symm
      _ = some c := by rw [hsplit, hc]
  rw [pyStrip, stripRight_of_getLast?_not_space _ c hlast hsp]
  exact endsSentence_of_getLast? _ c hlast hp

/-! ## Contiguity of the emitted segments -/

/-- The segments form a gap-free chain beginning at time `t`: each
segment starts where its predecessor ended. -/
def Contiguous : ℚ → List CaptionSegment → Prop
  | _, [] => True
  | t, s :: rest => s.start = t ∧ Contiguous s.«end» rest

theorem Contiguous.head_start (t : ℚ) (l : List CaptionSegment)
    (h : Contiguous t l) :
    ∀ s, l.head? = some s → s.start = t := by
  cases l with
  | nil => intro s hs; exact absurd hs (by simp)
  | cons a l =>
    intro s hs
    obtain rfl : a = s := by simpa using hs
    exact h.1

theorem Contiguous.chain_index (l : List CaptionSegment) :
    ∀ (t : ℚ), Contiguous t l →
      ∀ i s u, l[i]? = some s → l[i + 1]? = some u → s.«end» = u.start := by
  induction l with
  | nil => intro t _ i s u hs _; exact absurd hs (by simp)
  | cons a l ih =>
    intro t h i s u hs hu
    cases i with
    | zero =>
      obtain rfl : a = s := by simpa using hs
      cases l with
      | nil => exact absurd hu (by simp)
      | cons b l =>
        obtain rfl : b = u := by simpa using hu
        exact (h.2.1).symm
    | succ i =>
      exact ih a.«end» h.2 i s u (by simpa using hs) (by simpa using hu)

theorem captionLoop_contiguous (m : ℕ) :
    ∀ (ws : List Word) (st : ℚ) (ct : List Char) (wc : ℕ)
      (tail : List CaptionSegment),
      Contiguous (captionLoop m ws st ct wc).2.1 tail →
      Contiguous st ((captionLoop m ws st ct wc).1 ++ tail) := by
  intro ws
  induction ws with
  | nil => intro st ct wc tail h; simpa [captionLoop] using h
  | cons w ws ih =>
    intro st ct wc tail h
    by_cases hc : m ≤ wc + 1 ∨ endsSentence w.text
    · rw [captionLoop, if_pos hc] at h ⊢
      exact ⟨rfl, ih w.«end» [] 0 tail h⟩
    · rw [captionLoop, if_neg hc] at h ⊢
      exact ih st _ _ tail h

theorem captionLoop_ne_nil (m : ℕ) :
    ∀ (ws : List Word) (st : ℚ) (ct : List Char) (wc : ℕ), ws ≠ [] →
      (captionLoop m ws st ct wc).1 ≠ [] ∨
        (captionLoop m ws st ct wc).2.2.1 ≠ [] := by
  intro ws
  induction ws with
  | nil => intro st ct wc h; exact absurd rfl h
  | cons w ws ih =>
    intro st ct wc _
    by_cases hc : m ≤ wc + 1 ∨ endsSentence w.text
    · rw [captionLoop, if_pos hc]
      exact Or.inl (by simp)
    · rw [captionLoop, if_neg hc]
      cases hws : ws with
      | nil => exact Or.inr (by simp [captionLoop])
      | cons v vs => exact hws ▸ ih st _ _ (by simp [hws])

theorem captionLoop_nwords (m : ℕ) :
    ∀ (ws : List Word) (st : ℚ) (ct : List Char) (wc : ℕ), wc < m →
      (∀ s ∈ (captionLoop m ws st ct wc).1,
        s.nwords ≤ m ∧ (s.nwords = m ∨ endsSentence s.text = true)) ∧
      (captionLoop m ws st ct wc).2.2.2 < m := by
  intro ws
  induction ws with
  | nil => intro st ct wc hwc; exact ⟨by simp [captionLoop], hwc⟩
  | cons w ws ih =>
    intro st ct wc hwc
    by_cases hc : m ≤ wc + 1 ∨ endsSentence w.text
    · rw [captionLoop, if_pos hc]
      have hclose : wc + 1 = m ∨ endsSentence w.text = true := by
        rcases hc with hm | hp
        · exact Or.inl (Nat.le_antisymm (Nat.succ_le_of_lt hwc) hm)
        · exact Or.inr hp
      refine ⟨?_, (ih w.«end» [] 0 (Nat.lt_of_lt_of_le Nat.zero_lt_one
        (Nat.one_le_iff_ne_zero.mpr (by omega)))).2⟩
      intro s hs
      rcases List.mem_cons.mp hs with rfl | hs
      · refine ⟨Nat.succ_le_of_lt hwc, ?_⟩
        rcases hclose with hm | hp
        · exact Or.inl hm
        · refine Or.inr (endsSentence_pyStrip _ ?_)
          have : ct ++ ' ' :: w.text = (ct ++ [' ']) ++ w.text := by simp
          rw [this]
          exact endsSentence_append _ _ hp
      · exact (ih w.«end» [] 0 (by omega)).1 s hs
    · rw [captionLoop, if_neg hc]
      have hlt : wc + 1 < m := by
        rcases Nat.lt_or_ge (wc + 1) m with h | h
        · exact h
        · exact absurd (Or.inl h) hc
      exact ih st _ _ hlt

theorem captionLoop_tokens (m : ℕ) :
    ∀ (ws : List Word) (st : ℚ) (ct : List Char) (wc : ℕ),
      ((captionLoop m ws st ct wc).1.map (fun s => tokens s.text)).flatten ++
        tokens (captionLoop m ws st ct wc).2.2.1 =
      tokens ct ++ (ws.map (fun w => tokens w.text)).flatten := by
  intro ws
  induction ws with
  | nil => intro st ct wc; simp [captionLoop]
  | cons w ws ih =>
    intro st ct wc
    by_cases hc : m ≤ wc + 1 ∨ endsSentence w.text
    · rw [captionLoop, if_pos hc]
      have h := ih w.«end» [] 0
      rw [tokens_nil, List.nil_append] at h
      simp only [List.map_cons, List.flatten_cons, tokens_pyStrip,
        tokens_append_space, List.append_assoc, h]
    · rw [captionLoop, if_neg hc]
      rw [ih st _ _, tokens_append_space]
      simp

theorem captionLoop_last_of_ct_nil (m : ℕ) :
    ∀ (ws : List Word) (st : ℚ) (ct : List Char) (wc : ℕ), ws ≠ [] →
      (captionLoop m ws st ct wc).2.2.1 = [] →
      ∃ w, ws.getLast? = some w ∧
        ∃ s, (captionLoop m ws st ct wc).1.getLast? = some s ∧
          s.«end» = w.«end» ∧ (m ≤ s.nwords ∨ endsSentence w.text = true) := by
  intro ws
  induction ws with
  | nil => intro st ct wc h; exact absurd rfl h
  | cons w ws ih =>
    intro st ct wc _ hct
    by_cases hc : m ≤ wc + 1 ∨ endsSentence w.text
    · rw [captionLoop, if_pos hc] at hct ⊢
      by_cases hne : ws = []
      · subst hne
        refine ⟨w, by simp, ⟨st, w.«end», pyStrip (ct ++ ' ' :: w.text), wc + 1⟩,
          by simp [captionLoop], rfl, ?_⟩
        rcases hc with hm | hp
        · exact Or.inl hm
        · exact Or.inr hp
      · obtain ⟨w', hw', s, hs, hend, hcond⟩ := ih w.«end» [] 0 hne hct
        have h1 : (w :: ws).getLast? = some w' := by
          rw [show w :: ws = [w] ++ ws by rfl,
            List.getLast?_append_of_ne_nil [w] hne, hw']
        have hrest : (captionLoop m ws w.«end» [] 0).1 ≠ [] := by
          intro hnil; rw [hnil] at hs; exact absurd hs (by simp)
        refine ⟨w', h1, s, ?_, hend, hcond⟩
        rw [show (⟨st, w.«end», pyStrip (ct ++ ' ' :: w.text), wc + 1⟩ ::
            (captionLoop m ws w.«end» [] 0).1) =
          [(⟨st, w.«end», pyStrip (ct ++ ' ' :: w.text), wc + 1⟩ : CaptionSegment)] ++
            (captionLoop m ws w.«end» [] 0).1 by rfl,
          List.getLast?_append_of_ne_nil _ hrest, hs]
    · rw [captionLoop, if_neg hc] at hct ⊢
      by_cases hne : ws = []
      · subst hne
        simp [captionLoop] at hct
      · obtain ⟨w', hw', hrest⟩ := ih st _ _ hne hct
        exact ⟨w', by rw [show w :: ws = [w] ++ ws by rfl,
          List.getLast?_append_of_ne_nil [w] hne, hw'], hrest⟩

theorem captionLoop_start_irrel (m : ℕ) :
    ∀ (ws₁ ws₂ : List Word),
      ws₁.map (fun w => (w.«end», w.text)) = ws₂.map (fun w => (w.«end», w.text)) →
      ∀ (st : ℚ) (ct : List Char) (wc : ℕ),
        captionLoop m ws₁ st ct wc = captionLoop m ws₂ st ct wc := by
  intro ws₁
  induction ws₁ with
  | nil =>
    intro ws₂ h st ct wc
    cases ws₂ with
    | nil => rfl
    | cons w₂ ws₂ => exact absurd h (by simp)
  | cons w₁ ws₁ ih =>
    intro ws₂ h st ct wc
    cases ws₂ with
    | nil => exact absurd h (by simp)
    | cons w₂ ws₂ =>
      simp only [List.map_cons, List.cons.injEq, Prod.mk.injEq] at h
      obtain ⟨⟨he, ht⟩, hrest⟩ := h
      rw [captionLoop, captionLoop, he, ht]
      simp only [ih ws₂ hrest]

theorem add_captions_single_punct (w : Word) (d : ℚ)
    (hp : endsSentence w.text = true) :
    add_captions_to_video [w] d = [⟨0, w.«end», pyStrip (' ' :: w.text), 1⟩] := by
  simp [add_captions_to_video, captionLoop, hp]

/-! ## Claims about the segmentation algorithm -/

/-- C1, counterexample: on the 3-word input `["Hi","there","friend."]`
(with word end times 1, 2, 3) and `total_duration = 5`, the code emits one
segment ending at the last word's end time 3, not at the total duration 5:
the punctuation-triggered close inside the loop is not overridden, because
the final flush to `clip.duration` only happens when the accumulator is
non-empty after the loop. -/
theorem claim_C1_counterexample :
    add_captions_to_video
        [⟨0, 1, "Hi".toList⟩, ⟨1, 2, "there".toList⟩, ⟨2, 3, "friend.".toList⟩] 5 =
      [⟨0, 3, "Hi there friend.".toList, 3⟩] ∧ (3 : ℚ) ≠ 5 := by
  constructor
  · decide
  · norm_num

/-- C1, amended: for every non-empty word sequence, the last emitted
segment ends at `total_duration` unless the last word itself triggers a
close (word cap reached or terminal punctuation), in which case the last
segment ends at that word's end time. -/
theorem claim_C1_amended (ws : List Word) (d : ℚ) (h : ws ≠ []) :
    ∃ s, (add_captions_to_video ws d).getLast? = some s ∧
      (s.«end» = d ∨
        ∃ w, ws.getLast? = some w ∧ s.«end» = w.«end» ∧
          (max_caption_words ≤ s.nwords ∨ endsSentence w.text = true)) := by
  rw [add_captions_to_video, if_neg h]
  by_cases hct : (captionLoop max_caption_words ws 0 [] 0).2.2.1 ≠ []
  · rw [if_pos hct]
    exact ⟨_, List.getLast?_concat _, Or.inl rfl⟩
  · rw [if_neg hct]
    push_neg at hct
    obtain ⟨w, hw, s, hs, hend, hcond⟩ :=
      captionLoop_last_of_ct_nil max_caption_words ws 0 [] 0 h hct
    exact ⟨s, hs, Or.inr ⟨w, hw, hend, hcond⟩⟩

theorem claim_C1_amended_witness :
    ([⟨0, 1, "Hi".toList⟩] : List Word) ≠ [] ∧
    ∃ s, (add_captions_to_video [⟨0, 1, "Hi".toList⟩] 5).getLast? = some s ∧
      (s.«end» = 5 ∨
        ∃ w, ([⟨0, 1, "Hi".toList⟩] : List Word).getLast? = some w ∧
          s.«end» = w.«end» ∧
          (max_caption_words ≤ s.nwords ∨ endsSentence w.text = true)) :=
  ⟨by simp, claim_C1_amended [⟨0, 1, "Hi".toList⟩] 5 (by simp)⟩

/-- C3, confirmed: for every non-empty word sequence the emitted segments
are non-empty, start at 0, and are back-to-back: each segment's end is
the next segment's start. -/
theorem claim_C3 (ws : List Word) (d : ℚ) (h : ws ≠ []) :
    add_captions_to_video ws d ≠ [] ∧
    (∀ s, (add_captions_to_video ws d).head? = some s → s.start = 0) ∧
    ∀ i s u, (add_captions_to_video ws d)[i]? = some s →
      (add_captions_to_video ws d)[i + 1]? = some u → s.«end» = u.start := by
  have hcont : Contiguous 0 (add_captions_to_video ws d) := by
    rw [add_captions_to_video, if_neg h]
    by_cases hct : (captionLoop max_caption_words ws 0 [] 0).2.2.1 ≠ []
    · rw [if_pos hct]
      exact captionLoop_contiguous _ ws 0 [] 0 _ ⟨rfl, trivial⟩
    · rw [if_neg hct]
      simpa using captionLoop_contiguous max_caption_words ws 0 [] 0 [] trivial
  have hne : add_captions_to_video ws d ≠ [] := by
    rw [add_captions_to_video, if_neg h]
    by_cases hct : (captionLoop max_caption_words ws 0 [] 0).2.2.1 ≠ []
    · rw [if_pos hct]; simp
    · rw [if_neg hct]
      push_neg at hct
      rcases captionLoop_ne_nil max_caption_words ws 0 [] 0 h with h1 | h2
      · exact h1
      · exact absurd hct h2
  exact ⟨hne, hcont.head_start, Contiguous.chain_index _ 0 hcont⟩

theorem claim_C3_witness :
    ([⟨0, 1, "a.".toList⟩, ⟨1, 2, "b".toList⟩] : List Word) ≠ [] ∧
    (add_captions_to_video [⟨0, 1, "a.".toList⟩, ⟨1, 2, "b".toList⟩] 3 ≠ [] ∧
      (∀ s, (add_captions_to_video [⟨0, 1, "a.".toList⟩, ⟨1, 2, "b".toList⟩] 3).head? =
        some s → s.start = 0) ∧
      ∀ i s u,
        (add_captions_to_video [⟨0, 1, "a.".toList⟩, ⟨1, 2, "b".toList⟩] 3)[i]? = some s →
        (add_captions_to_video [⟨0, 1, "a.".toList⟩, ⟨1, 2, "b".toList⟩] 3)[i + 1]? = some u →
        s.«end» = u.start) :=
  ⟨by simp, claim_C3 [⟨0, 1, "a.".toList⟩, ⟨1, 2, "b".toList⟩] 3 (by simp)⟩

/-- C4, confirmed: every emitted segment holds at most `max_caption_words`
words; every non-final segment was closed by the word cap or by terminal
punctuation (its text then ends in `.`, `!` or `?`); and a single word
ending in terminal punctuation closes immediately as a one-word
segment. -/
theorem claim_C4 (ws : List Word) (d : ℚ) :
    (∀ s ∈ add_captions_to_video ws d, s.nwords ≤ max_caption_words) ∧
    (∀ i s, (add_captions_to_video ws d)[i]? = some s →
      i + 1 < (add_captions_to_video ws d).length →
      (s.nwords = max_caption_words ∨ endsSentence s.text = true)) ∧
    ∀ w : Word, endsSentence w.text = true →
      add_captions_to_video [w] d = [⟨0, w.«end», pyStrip (' ' :: w.text), 1⟩] := by
  have hm : 0 < max_caption_words := by decide
  have hmain := captionLoop_nwords max_caption_words ws 0 [] 0 hm
  by_cases h : ws = []
  · subst h
    exact ⟨by simp [add_captions_to_video], by simp [add_captions_to_video],
      fun w hp => add_captions_single_punct w d hp⟩
  · rw [add_captions_to_video, if_neg h]
    by_cases hct : (captionLoop max_caption_words ws 0 [] 0).2.2.1 ≠ []
    · rw [if_pos hct]
      refine ⟨?_, ?_, fun w hp => add_captions_single_punct w d hp⟩
      · intro s hs
        rcases List.mem_append.mp hs with hs | hs
        · exact (hmain.1 s hs).1
        · rw [List.mem_singleton] at hs
          subst hs
          exact le_of_lt hmain.2
      · intro i s hs hlen
        have hi : i < (captionLoop max_caption_words ws 0 [] 0).1.length := by
          rw [List.length_append, List.length_singleton] at hlen
          omega
        rw [List.getElem?_append_left hi] at hs
        exact (hmain.1 s (List.getElem?_mem hs)).2
    · rw [if_neg hct]
      exact ⟨fun s hs => (hmain.1 s hs).1,
        fun i s hs _ => (hmain.1 s (List.getElem?_mem hs)).2,
        fun w hp => add_captions_single_punct w d hp⟩

theorem claim_C4_witness :
    endsSentence ("ok.".toList) = true ∧
    add_captions_to_video [⟨0, 2, "ok.".toList⟩] 7 =
      [⟨0, 2, pyStrip (' ' :: "ok.".toList), 1⟩] :=
  ⟨by decide, (claim_C4 [] 7).2.2 ⟨0, 2, "ok.".toList⟩ (by decide)⟩

/-- C7, confirmed: joining the emitted segment texts with single spaces
reproduces the original word sequence joined with single spaces, up to
single-space normalisation (equal whitespace tokenisations): every word
lands in exactly one segment, in order, none dropped or duplicated. -/
theorem claim_C7 (ws : List Word) (d : ℚ) :
    tokens (joinSpace ((add_captions_to_video ws d).map (fun s => s.text))) =
    tokens (joinSpace (ws.map (fun w => w.text))) := by
  rw [tokens_joinSpace, tokens_joinSpace, List.map_map, List.map_map]
  have hmain := captionLoop_tokens max_caption_words ws 0 [] 0
  rw [tokens_nil, List.nil_append] at hmain
  by_cases h : ws = []
  · subst h
    simp [add_captions_to_video]
  · rw [add_captions_to_video, if_neg h]
    by_cases hct : (captionLoop max_caption_words ws 0 [] 0).2.2.1 ≠ []
    · rw [if_pos hct]
      rw [List.map_append, List.flatten_append]
      simpa [Function.comp_def, tokens_pyStrip] using hmain
    · rw [if_neg hct]
      push_neg at hct
      rw [hct, tokens_nil, List.append_nil] at hmain
      simpa [Function.comp_def] using hmain

/-- C10, confirmed: the segmentation output depends only on the words'
texts, the words' end times and the total duration; the words' start
times never influence the emitted segments (the loop binds `start` but
never reads it). -/
theorem claim_C10 (ws₁ ws₂ : List Word) (d : ℚ)
    (h : ws₁.map (fun w => (w.«end», w.text)) = ws₂.map (fun w => (w.«end», w.text))) :
    add_captions_to_video ws₁ d = add_captions_to_video ws₂ d := by
  by_cases h1 : ws₁ = []
  · subst h1
    have h2 : ws₂ = [] := by cases ws₂ <;> simp_all
    subst h2; rfl
  · have h2 : ws₂ ≠ [] := by intro h2; subst h2; cases ws₁ <;> simp_all
    rw [add_captions_to_video, add_captions_to_video, if_neg h1, if_neg h2,
      captionLoop_start_irrel max_caption_words ws₁ ws₂ h 0 [] 0]

theorem claim_C10_witness :
    ([⟨0, 1, "a".toList⟩] : List Word).map (fun w => (w.«end», w.text)) =
      ([⟨1/2, 1, "a".toList⟩] : List Word).map (fun w => (w.«end», w.text)) ∧
    add_captions_to_video [⟨0, 1, "a".toList⟩] 2 =
      add_captions_to_video [⟨1/2, 1, "a".toList⟩] 2 :=
  ⟨by decide, claim_C10 [⟨0, 1, "a".toList⟩] [⟨1/2, 1, "a".toList⟩] 2 (by decide)⟩

/-! ## The batch scheduler

Embeds the `__main__` loop of `main.py`.  The scheduler polls a shared
status map: a worker sets its entry to `True` when `start_process` runs to
completion.  Worker progress is modelled by an oracle attached to each
queued job: `some d` means the worker's flag becomes `True` after `d`
polling iterations; `none` models a worker that crashes (dies without ever
setting its flag, which stays `False`). -/

/-- Completion behaviour of one worker process. -/
abbrev WorkerBehaviour := Option ℕ

/-- One polling interval of concurrent worker progress: a live worker gets
one iteration closer to completion; a finished worker keeps its `True`
flag; a crashed worker never sets its flag. -/
def tickWorker : WorkerBehaviour → WorkerBehaviour
  | none => none
  | some 0 => some 0
  | some (d + 1) => some d

/-- The entry of this worker in `processes_status_dict`: `True` exactly
once a live worker has run to completion. -/
def flagTrue : WorkerBehaviour → Bool
  | none => false
  | some 0 => true
  | some (_ + 1) => false

/-- Scheduler state: `video_queue` holds the not-yet-dequeued jobs (each
carrying its worker's behaviour), `processes` the tracked (spawned,
unreaped) workers in spawn order, and `num_active_processes` the source's
counter variable. -/
structure SchedulerState where
  video_queue : List WorkerBehaviour
  processes : List WorkerBehaviour
  num_active_processes : ℕ
  deriving DecidableEq

/-- The dequeue-and-spawn `if` at the top of the loop body:
`if (num_active_processes < MAX_NUMBER_OF_PROCESSES) and (video_queue.qsize() > 0)`
pops one file name and spawns one worker for it. -/
def spawnStep (maxP : ℕ) (s : SchedulerState) : SchedulerState :=
  match s.video_queue with
  | [] => s
  | j :: rest =>
    if s.num_active_processes < maxP then
      ⟨rest, s.processes ++ [j], s.num_active_processes + 1⟩
    else s

/-- Concurrent worker progress during one polling interval. -/
def tickStep (s : SchedulerState) : SchedulerState :=
  ⟨s.video_queue, s.processes.map tickWorker, s.num_active_processes⟩

/-- The reap loop over `processes_status_dict.items()`: every tracked
process whose status flag is `True` is joined, removed from `processes`
and from the status map, and `num_active_processes` is decremented once
for each. -/
def reapStep (s : SchedulerState) : SchedulerState :=
  ⟨s.video_queue, s.processes.filter (fun j => !flagTrue j),
    s.num_active_processes - s.processes.countP (fun j => flagTrue j)⟩

/-- One iteration of the `while` loop: spawn at most one worker, let the
workers run for one polling interval, then reap the completed ones. -/
def schedulerStep (maxP : ℕ) (s : SchedulerState) : SchedulerState :=
  reapStep (tickStep (spawnStep maxP s))

/-- The loop guard
`while (video_queue.qsize() != 0) or (len(processes) != 0)`; the loop has
terminated exactly when this is `false`. -/
def loopActive (s : SchedulerState) : Bool :=
  decide (s.video_queue ≠ []) || decide (s.processes ≠ [])

/-- State before the first loop iteration: all file names queued, no
worker spawned. -/
def initState (jobs : List WorkerBehaviour) : SchedulerState :=
  ⟨jobs, [], 0⟩

/-- The counter `num_active_processes` agrees with the number of tracked
processes, and the tracked processes never exceed the concurrency cap. -/
def SchedInv (maxP : ℕ) (s : SchedulerState) : Prop :=
  s.num_active_processes = s.processes.length ∧ s.processes.length ≤ maxP

/-- No queued or tracked worker is a crashing one. -/
def NoCrash (s : SchedulerState) : Prop :=
  (∀ j ∈ s.video_queue, j ≠ none) ∧ ∀ j ∈ s.processes, j ≠ none

theorem length_filter_not_add_countP (l : List WorkerBehaviour)
    (p : WorkerBehaviour → Bool) :
    (l.filter (fun j => !p j)).length + l.countP p = l.length := by
  induction l with
  | nil => rfl
  | cons j l ih =>
    by_cases h : p j = true <;>
      simp [List.filter_cons, List.countP_cons, h, ← ih] <;> omega

theorem schedInv_spawn (maxP : ℕ) (s : SchedulerState) (h : SchedInv maxP s) :
    SchedInv maxP (spawnStep maxP s) := by
  obtain ⟨h1, h2⟩ := h
  unfold spawnStep
  cases hq : s.video_queue with
  | nil => exact ⟨h1, h2⟩
  | cons j rest =>
    show SchedInv maxP
      (if s.num_active_processes < maxP then
        ⟨rest, s.processes ++ [j], s.num_active_processes + 1⟩ else s)
    by_cases hlt : s.num_active_processes < maxP
    · rw [if_pos hlt]
      refine ⟨by simp [h1], ?_⟩
      simp only [List.length_append, List.length_singleton]
      omega
    · rw [if_neg hlt]
      exact ⟨h1, h2⟩

theorem schedInv_reap_tick (maxP : ℕ) (t : SchedulerState)
    (h : SchedInv maxP t) : SchedInv maxP (reapStep (tickStep t)) := by
  obtain ⟨h1, h2⟩ := h
  have hsplit := length_filter_not_add_countP (t.processes.map tickWorker) flagTrue
  constructor
  · show t.num_active_processes - (t.processes.map tickWorker).countP flagTrue =
      ((t.processes.map tickWorker).filter (fun j => !flagTrue j)).length
    simp only [List.length_map] at hsplit
    omega
  · calc ((t.processes.map tickWorker).filter (fun j => !flagTrue j)).length
        ≤ (t.processes.map tickWorker).length := List.length_filter_le _ _
      _ = t.processes.length := List.length_map _ _
      _ ≤ maxP := h2

theorem schedInv_step (maxP : ℕ) (s : SchedulerState) (h : SchedInv maxP s) :
    SchedInv maxP (schedulerStep maxP s) :=
  schedInv_reap_tick maxP _ (schedInv_spawn maxP s h)

theorem tickWorker_ne_none (j : WorkerBehaviour) (h : j ≠ none) :
    tickWorker j ≠ none := by
  match j with
  | none => exact absurd rfl h
  | some 0 => simp [tickWorker]
  | some (d + 1) => simp [tickWorker]

theorem noCrash_step (maxP : ℕ) (s : SchedulerState) (h : NoCrash s) :
    NoCrash (schedulerStep maxP s) := by
  obtain ⟨hq, hp⟩ := h
  have hsp : NoCrash (spawnStep maxP s) := by
    unfold spawnStep
    cases hqq : s.video_queue with
    | nil => exact ⟨hq, hp⟩
    | cons j rest =>
      show NoCrash
        (if s.num_active_processes < maxP then
          ⟨rest, s.processes ++ [j], s.num_active_processes + 1⟩ else s)
      by_cases hlt : s.num_active_processes < maxP
      · rw [if_pos hlt]
        refine ⟨fun x hx => hq x (by rw [hqq]; exact List.mem_cons_of_mem j hx), ?_⟩
        intro x hx
        rcases List.mem_append.mp hx with hx | hx
        · exact hp x hx
        · rw [List.mem_singleton] at hx
          subst hx
          exact hq x (by rw [hqq]; exact List.mem_cons_self x rest)
      · rw [if_neg hlt]
        exact ⟨hq, hp⟩
  obtain ⟨hq', hp'⟩ := hsp
  refine ⟨hq', ?_⟩
  intro x hx
  have hx' := List.mem_filter.mp hx
  obtain ⟨y, hy, rfl⟩ := List.mem_map.mp hx'.1
  exact tickWorker_ne_none y (hp' y hy)

/-- Termination measure: pending work remaining in the system. -/
def schedMeasure (s : SchedulerState) : ℕ :=
  (s.video_queue.map (fun j => jobWeight j + 2)).sum +
    (s.processes.map (fun j => jobWeight j + 1)).sum
where
  jobWeight : WorkerBehaviour → ℕ
    | some d => d
    | none => 0

theorem processes_sum_decrease (l : List WorkerBehaviour)
    (hl : ∀ j ∈ l, j ≠ none) :
    (((l.map tickWorker).filter (fun j => !flagTrue j)).map
        (fun j => schedMeasure.jobWeight j + 1)).sum + l.length ≤
      (l.map (fun j => schedMeasure.jobWeight j + 1)).sum := by
  induction l with
  | nil => simp
  | cons j l ih =>
    have hj : j ≠ none := hl j (List.mem_cons_self j l)
    have hrec := ih (fun x hx => hl x (List.mem_cons_of_mem j hx))
    match j with
    | none => exact absurd rfl hj
    | some 0 =>
      show (((l.map tickWorker).filter (fun j => !flagTrue j)).map
          (fun j => schedMeasure.jobWeight j + 1)).sum + (l.length + 1) ≤
        0 + 1 + (l.map (fun j => schedMeasure.jobWeight j + 1)).sum
      omega
    | some 1 =>
      show (((l.map tickWorker).filter (fun j => !flagTrue j)).map
          (fun j => schedMeasure.jobWeight j + 1)).sum + (l.length + 1) ≤
        1 + 1 + (l.map (fun j => schedMeasure.jobWeight j + 1)).sum
      omega
    | some (e + 2) =>
      show e + 1 + 1 + (((l.map tickWorker).filter (fun j => !flagTrue j)).map
          (fun j => schedMeasure.jobWeight j + 1)).sum + (l.length + 1) ≤
        e + 2 + 1 + (l.map (fun j => schedMeasure.jobWeight j + 1)).sum
      omega

theorem schedMeasure_reap_tick (t : SchedulerState)
    (hnc : ∀ j ∈ t.processes, j ≠ none) :
    schedMeasure (reapStep (tickStep t)) + t.processes.length ≤ schedMeasure t := by
  have h := processes_sum_decrease t.processes hnc
  show (t.video_queue.map (fun j => schedMeasure.jobWeight j + 2)).sum +
      (((t.processes.map tickWorker).filter (fun j => !flagTrue j)).map
        (fun j => schedMeasure.jobWeight j + 1)).sum + t.processes.length ≤
    (t.video_queue.map (fun j => schedMeasure.jobWeight j + 2)).sum +
      (t.processes.map (fun j => schedMeasure.jobWeight j + 1)).sum
  omega

theorem schedMeasure_decrease (maxP : ℕ) (hP : 1 ≤ maxP) (s : SchedulerState)
    (hinv : SchedInv maxP s) (hnc : NoCrash s) (hact : loopActive s = true) :
    schedMeasure (schedulerStep maxP s) < schedMeasure s := by
  unfold schedulerStep
  rcases hq : s.video_queue with _ | ⟨j, rest⟩
  · have hsp : spawnStep maxP s = s := by unfold spawnStep; rw [hq]
    rw [hsp]
    have hne : s.processes ≠ [] := by
      unfold loopActive at hact
      rw [hq] at hact
      simpa using hact
    have hlen : 1 ≤ s.processes.length := List.length_pos.mpr hne
    have := schedMeasure_reap_tick s hnc.2
    omega
  · by_cases hlt : s.num_active_processes < maxP
    · have hsp : spawnStep maxP s =
          ⟨rest, s.processes ++ [j], s.num_active_processes + 1⟩ := by
        unfold spawnStep
        rw [hq]
        show (if s.num_active_processes < maxP then
            (⟨rest, s.processes ++ [j], s.num_active_processes + 1⟩ : SchedulerState)
          else s) = _
        rw [if_pos hlt]
      rw [hsp]
      have hnc' : ∀ x ∈ s.processes ++ [j], x ≠ none := by
        intro x hx
        rcases List.mem_append.mp hx with hx | hx
        · exact hnc.2 x hx
        · rw [List.mem_singleton] at hx
          subst hx
          exact hnc.1 x (by rw [hq]; exact List.mem_cons_self x rest)
      have h1 := schedMeasure_reap_tick
        ⟨rest, s.processes ++ [j], s.num_active_processes + 1⟩ hnc'
      have h2 : schedMeasure
            (⟨rest, s.processes ++ [j], s.num_active_processes + 1⟩ :
              SchedulerState) + 1 = schedMeasure s := by
        show (rest.map _).sum + ((s.processes ++ [j]).map _).sum + 1 =
          (s.video_queue.map _).sum + (s.processes.map _).sum
        rw [hq]
        simp only [List.map_append, List.sum_append, List.map_cons,
          List.sum_cons, List.map_nil, List.sum_nil]
        omega
      have h3 : 1 ≤ (s.processes ++ [j]).length := by simp
      omega
    · have hsp : spawnStep maxP s = s := by
        unfold spawnStep
        rw [hq]
        show (if s.num_active_processes < maxP then
            (⟨rest, s.processes ++ [j], s.num_active_processes + 1⟩ : SchedulerState)
          else s) = _
        rw [if_neg hlt]
      rw [hsp]
      have h4 := hinv.1
      have h5 : maxP ≤ s.num_active_processes := Nat.le_of_not_lt hlt
      have := schedMeasure_reap_tick s hnc.2
      omega

theorem scheduler_terminates (k : ℕ) :
    ∀ (maxP : ℕ), 1 ≤ maxP → ∀ s, SchedInv maxP s → NoCrash s →
      schedMeasure s ≤ k →
      ∃ n, loopActive ((schedulerStep maxP)^[n] s) = false := by
  induction k with
  | zero =>
    intro maxP hP s hinv hnc hm
    by_cases hact : loopActive s = true
    · have := schedMeasure_decrease maxP hP s hinv hnc hact
      omega
    · exact ⟨0, by simpa using hact⟩
  | succ k ih =>
    intro maxP hP s hinv hnc hm
    by_cases hact : loopActive s = true
    · have hdec := schedMeasure_decrease maxP hP s hinv hnc hact
      obtain ⟨n, hn⟩ := ih maxP hP (schedulerStep maxP s)
        (schedInv_step maxP s hinv) (noCrash_step maxP s hnc) (by omega)
      exact ⟨n + 1, by rwa [Function.iterate_succ_apply]⟩
    · exact ⟨0, by simpa using hact⟩

/-! ## Claims about the scheduler -/

/-- C2, confirmed: for every queue and every concurrency cap, the number
of tracked (spawned, unreaped) workers never exceeds the cap at any
iteration; the loop guard is false exactly when the queue is empty and no
tracked process remains; and when the cap is positive and no worker
crashes, the loop terminates. -/
theorem claim_C2 (maxP : ℕ) (jobs : List WorkerBehaviour) :
    (∀ n, ((schedulerStep maxP)^[n] (initState jobs)).processes.length ≤ maxP) ∧
    (∀ s : SchedulerState,
      loopActive s = false ↔ s.video_queue = [] ∧ s.processes = []) ∧
    (1 ≤ maxP → (∀ j ∈ jobs, j ≠ none) →
      ∃ n, loopActive ((schedulerStep maxP)^[n] (initState jobs)) = false) := by
  have hinv : ∀ n, SchedInv maxP ((schedulerStep maxP)^[n] (initState jobs)) := by
    intro n
    induction n with
    | zero => exact ⟨rfl, Nat.zero_le maxP⟩
    | succ n ih =>
      rw [Function.iterate_succ_apply']
      exact schedInv_step maxP _ ih
  refine ⟨fun n => (hinv n).2, ?_, ?_⟩
  · intro s
    unfold loopActive
    constructor
    · intro h
      simpa using h
    · intro h
      simp [h.1, h.2]
  · intro hP hjobs
    exact scheduler_terminates (schedMeasure (initState jobs)) maxP hP
      (initState jobs) ⟨rfl, Nat.zero_le maxP⟩
      ⟨hjobs, fun j hj => absurd hj (List.not_mem_nil j)⟩ le_rfl

theorem claim_C2_witness :
    (1 ≤ 2 ∧ ∀ j ∈ ([some 1, some 0, some 2] : List WorkerBehaviour), j ≠ none) ∧
    ∃ n, loopActive ((schedulerStep 2)^[n] (initState [some 1, some 0, some 2])) = false :=
  ⟨⟨by norm_num, by decide⟩,
    (claim_C2 2 [some 1, some 0, some 2]).2.2 (by norm_num) (by decide)⟩

/-- C6, counterexample: with a single crashing worker, after one
iteration the scheduler is in a non-terminal state that is a fixpoint of
the loop body — the crashed worker's flag is never `True`, it is never
reaped, and the loop spins in its Draining state forever; the crash is
never surfaced as a terminal Failed status. -/
theorem claim_C6_counterexample :
    loopActive (schedulerStep 2 (initState [none])) = true ∧
    schedulerStep 2 (schedulerStep 2 (initState [none])) =
      schedulerStep 2 (initState [none]) := by
  exact ⟨rfl, rfl⟩

/-- C6, amended: a crashed worker is never reaped; with a single crashing
job the scheduler's loop guard stays true at every iteration for every
positive concurrency cap — the termination condition is never reached. -/
theorem claim_C6_amended (maxP : ℕ) (hP : 1 ≤ maxP) (n : ℕ) :
    loopActive ((schedulerStep maxP)^[n] (initState [none])) = true := by
  have h0 : (0 : ℕ) < maxP := hP
  have h1 : schedulerStep maxP (initState [none]) =
      (⟨[], [none], 1⟩ : SchedulerState) := by
    unfold schedulerStep
    have hsp : spawnStep maxP (initState [none]) =
        (⟨[], [none], 1⟩ : SchedulerState) := by
      unfold spawnStep initState
      show (if (0 : ℕ) < maxP then
          (⟨[], [] ++ [none], 0 + 1⟩ : SchedulerState) else ⟨[none], [], 0⟩) = _
      rw [if_pos h0]
      rfl
    rw [hsp]
    rfl
  have h2 : schedulerStep maxP (⟨[], [none], 1⟩ : SchedulerState) =
      (⟨[], [none], 1⟩ : SchedulerState) := rfl
  cases n with
  | zero => rfl
  | succ n =>
    rw [Function.iterate_succ_apply, h1]
    have hfix : (schedulerStep maxP)^[n] (⟨[], [none], 1⟩ : SchedulerState) =
        (⟨[], [none], 1⟩ : SchedulerState) := by
      induction n with
      | zero => rfl
      | succ m ih =>
        rw [Function.iterate_succ_apply, h2]
        exact ih
    rw [hfix]
    rfl

theorem claim_C6_amended_witness :
    1 ≤ 2 ∧ loopActive ((schedulerStep 2)^[3] (initState [none])) = true :=
  ⟨by norm_num, claim_C6_amended 2 (by norm_num) 3⟩

/-! ## The write-with-retry loop of `start_process`

Embeds `for pos in range(5): try: output_video.write_videofile(...);
break except IOError: warn; time.sleep(1) else: log error` together with
the surrounding function's observable effects. -/

/-- Outcome of one `output_video.write_videofile(...)` attempt. -/
inductive WriteOutcome
  | success
  | ioError
  | fatalError
  deriving DecidableEq

/-- Result of the `for pos in range(5) ... else` loop, recording the
index `pos` of the decisive attempt. -/
inductive RetryResult
  | written (pos : ℕ)
  | exhausted
  | raised (pos : ℕ)
  deriving DecidableEq

/-- The retry loop: attempt `pos`, `break` on success, retry on
`IOError` (after a warning log and a one-second sleep), and let any other
exception propagate.  `fuel` is the number of loop indices left in
`range(5)`. -/
def write_retry (o : ℕ → WriteOutcome) : ℕ → ℕ → RetryResult
  | _, 0 => .exhausted
  | pos, fuel + 1 =>
    match o pos with
    | .success => .written pos
    | .ioError => write_retry o (pos + 1) fuel
    | .fatalError => .raised pos

/-- Observable effects of one `start_process` run: write attempts made,
`"Trying again"` warning lines, one-second backoff sleeps, whether the
loop's `else` error line ran, whether the output was written, whether an
exception escaped `start_process` (killing the worker), and the final
value of this worker's entry in `processes_status_dict` (set `False` on
entry, set `True` only by the last line of the function). -/
structure JobRun where
  attempts : ℕ
  warnings : ℕ
  sleeps : ℕ
  errorLogged : Bool
  written : Bool
  crashed : Bool
  statusFlag : Bool
  deriving DecidableEq

/-- `start_process`, abstracted to the retry loop and its observable
effects as a function of the attempts' outcomes.  The loop reaches
attempt `pos` only after `pos` IOErrors, each logged and slept on; after
the loop the function closes the clips and sets the status flag `True`,
also when all five attempts failed. -/
def start_process (o : ℕ → WriteOutcome) : JobRun :=
  match write_retry o 0 5 with
  | .written pos => ⟨pos + 1, pos, pos, false, true, false, true⟩
  | .exhausted => ⟨5, 5, 5, true, false, false, true⟩
  | .raised pos => ⟨pos + 1, pos, pos, false, false, true, false⟩

theorem write_retry_pos_lt (o : ℕ → WriteOutcome) :
    ∀ (fuel pos p : ℕ),
      write_retry o pos fuel = .written p ∨ write_retry o pos fuel = .raised p →
      p < pos + fuel := by
  intro fuel
  induction fuel with
  | zero =>
    intro pos p h
    rcases h with h | h <;> exact absurd h (by simp [write_retry])
  | succ fuel ih =>
    intro pos p h
    simp only [write_retry] at h
    cases ho : o pos with
    | success =>
      rw [ho] at h
      rcases h with h | h
      · obtain rfl : pos = p := by simpa using h
        omega
      · exact absurd h (by simp)
    | ioError =>
      rw [ho] at h
      have := ih (pos + 1) p h
      omega
    | fatalError =>
      rw [ho] at h
      rcases h with h | h
      · exact absurd h (by simp)
      · obtain rfl : pos = p := by simpa using h
        omega

theorem write_retry_success (o : ℕ → WriteOutcome) (k : ℕ) :
    ∀ (pos fuel : ℕ), k < fuel → (∀ i, i < k → o (pos + i) = .ioError) →
      o (pos + k) = .success → write_retry o pos fuel = .written (pos + k) := by
  induction k with
  | zero =>
    intro pos fuel hk hio hs
    cases fuel with
    | zero => omega
    | succ fuel =>
      simp only [write_retry]
      rw [show pos + 0 = pos from rfl] at hs
      rw [hs]
      rfl
  | succ k ih =>
    intro pos fuel hk hio hs
    cases fuel with
    | zero => omega
    | succ fuel =>
      have h0 : o pos = .ioError := by
        have := hio 0 (Nat.succ_pos k)
        simpa using this
      simp only [write_retry, h0]
      have h1 : write_retry o (pos + 1) fuel = .written (pos + 1 + k) := by
        refine ih (pos + 1) fuel (by omega) ?_ ?_
        · intro i hi
          have := hio (i + 1) (by omega)
          rwa [show pos + (i + 1) = pos + 1 + i by omega] at this
        · rwa [show pos + (k + 1) = pos + 1 + k by omega] at hs
      rw [h1, show pos + 1 + k = pos + (k + 1) by omega]

theorem write_retry_exhausted (o : ℕ → WriteOutcome) :
    ∀ (fuel pos : ℕ), (∀ i, i < fuel → o (pos + i) = .ioError) →
      write_retry o pos fuel = .exhausted := by
  intro fuel
  induction fuel with
  | zero => intro pos _; rfl
  | succ fuel ih =>
    intro pos hio
    have h0 : o pos = .ioError := by simpa using hio 0 (Nat.succ_pos fuel)
    simp only [write_retry, h0]
    refine ih (pos + 1) ?_
    intro i hi
    have := hio (i + 1) (by omega)
    rwa [show pos + (i + 1) = pos + 1 + i by omega] at this

theorem write_retry_raised (o : ℕ → WriteOutcome) (k : ℕ) :
    ∀ (pos fuel : ℕ), k < fuel → (∀ i, i < k → o (pos + i) = .ioError) →
      o (pos + k) = .fatalError → write_retry o pos fuel = .raised (pos + k) := by
  induction k with
  | zero =>
    intro pos fuel hk hio hs
    cases fuel with
    | zero => omega
    | succ fuel =>
      simp only [write_retry]
      rw [show pos + 0 = pos from rfl] at hs
      rw [hs]
      rfl
  | succ k ih =>
    intro pos fuel hk hio hs
    cases fuel with
    | zero => omega
    | succ fuel =>
      have h0 : o pos = .ioError := by
        have := hio 0 (Nat.succ_pos k)
        simpa using this
      simp only [write_retry, h0]
      have h1 : write_retry o (pos + 1) fuel = .raised (pos + 1 + k) := by
        refine ih (pos + 1) fuel (by omega) ?_ ?_
        · intro i hi
          have := hio (i + 1) (by omega)
          rwa [show pos + (i + 1) = pos + 1 + i by omega] at this
        · rwa [show pos + (k + 1) = pos + 1 + k by omega] at hs
      rw [h1, show pos + 1 + k = pos + (k + 1) by omega]

/-! ## Claims about the retry loop -/

/-- C5, counterexample: after five consecutive I/O failures the job is
NOT marked Failed and no error is surfaced to the scheduler — the only
scheduler-visible signal, the status flag, is set `True` exactly as for a
successful job; the failure is visible only in the log (and in the
missing output file). -/
theorem claim_C5_counterexample :
    (start_process (fun _ => .ioError)).statusFlag = true ∧
    (start_process (fun _ => .ioError)).statusFlag =
      (start_process (fun _ => .success)).statusFlag ∧
    (start_process (fun _ => .ioError)).errorLogged = true ∧
    (start_process (fun _ => .ioError)).written = false :=
  ⟨rfl, rfl, rfl, rfl⟩

/-- C5, amended: the write is attempted at most 5 times; warnings and
one-second backoffs coincide; `k < 5` I/O failures followed by a success
give a completed job with exactly `k` warnings and no further attempt;
five consecutive I/O failures stop the retrying and log an error, but the
worker then completes normally from the scheduler's point of view (status
flag `True`, no Failed status); a non-I/O failure is never retried and
immediately kills the worker (the flag stays `False`). -/
theorem claim_C5_amended (o : ℕ → WriteOutcome) :
    (start_process o).attempts ≤ 5 ∧
    (start_process o).warnings = (start_process o).sleeps ∧
    (∀ k, k < 5 → (∀ i, i < k → o i = .ioError) → o k = .success →
      start_process o = ⟨k + 1, k, k, false, true, false, true⟩) ∧
    ((∀ i, i < 5 → o i = .ioError) →
      start_process o = ⟨5, 5, 5, true, false, false, true⟩) ∧
    (∀ k, k < 5 → (∀ i, i < k → o i = .ioError) → o k = .fatalError →
      start_process o = ⟨k + 1, k, k, false, false, true, false⟩) := by
  refine ⟨?_, ?_, ?_, ?_, ?_⟩
  · unfold start_process
    cases hr : write_retry o 0 5 with
    | written pos =>
      have := write_retry_pos_lt o 5 0 pos (Or.inl hr)
      simp only
      omega
    | exhausted => simp
    | raised pos =>
      have := write_retry_pos_lt o 5 0 pos (Or.inr hr)
      simp only
      omega
  · unfold start_process
    cases hr : write_retry o 0 5 <;> rfl
  · intro k hk hio hs
    have h := write_retry_success o k 0 5 hk
      (fun i hi => by simpa using hio i hi) (by simpa using hs)
    rw [Nat.zero_add] at h
    unfold start_process
    rw [h]
  · intro hio
    have h := write_retry_exhausted o 5 0 (fun i hi => by simpa using hio i hi)
    unfold start_process
    rw [h]
  · intro k hk hio hs
    have h := write_retry_raised o k 0 5 hk
      (fun i hi => by simpa using hio i hi) (by simpa using hs)
    rw [Nat.zero_add] at h
    unfold start_process
    rw [h]

theorem claim_C5_amended_witness :
    2 < 5 ∧
    start_process (fun i => if i < 2 then WriteOutcome.ioError else .success) =
      ⟨3, 2, 2, false, true, false, true⟩ :=
  ⟨by norm_num,
    (claim_C5_amended (fun i => if i < 2 then .ioError else .success)).2.2.1 2
      (by norm_num) (fun i hi => by simp [hi]) (by simp)⟩

/-! ## The frame trimming formula of `start_process`

Embeds
`end_time = round(((output_video.duration * 100 // output_video.fps) * output_video.fps / 100), 2)`
followed by `output_video.subclip(t_end=end_time)`.  Python floats are
modelled as exact rationals. -/

/-- Python float floor division `a // b`. -/
def pyFloordiv (a b : ℚ) : ℚ := ⌊a / b⌋

/-- Python `round` to an integer: nearest integer, ties to the even one
(Python rounds half to even). -/
def pyRoundInt (q : ℚ) : ℤ :=
  if q - ⌊q⌋ < 1 / 2 then ⌊q⌋
  else if 1 / 2 < q - ⌊q⌋ then ⌊q⌋ + 1
  else if ⌊q⌋ % 2 = 0 then ⌊q⌋ else ⌊q⌋ + 1

/-- Python `round(x, ndigits)`. -/
def pyRound (q : ℚ) (ndigits : ℕ) : ℚ :=
  pyRoundInt (q * 10 ^ ndigits) / 10 ^ ndigits

/-- The subclip end time computed before writing the output video. -/
def end_time (duration fps : ℚ) : ℚ :=
  pyRound (pyFloordiv (duration * 100) fps * fps / 100) 2

theorem pyRoundInt_intCast (z : ℤ) : pyRoundInt (z : ℚ) = z := by
  unfold pyRoundInt
  rw [Int.floor_intCast]
  norm_num

/-! ## Claim about the frame trim -/

/-- C8, counterexample: at duration 5 and frame rate 30 the code trims to
4.8 seconds, not to `⌊5 · 30⌋ / 30 = 5`; 5 itself is a whole multiple of
one output frame (150 frames) not exceeding the duration and is larger
than 4.8, so the result is not the largest frame-aligned duration. -/
theorem claim_C8_counterexample :
    end_time 5 30 = 24 / 5 ∧ ((24 : ℚ) / 5 ≠ (⌊(5 : ℚ) * 30⌋ : ℚ) / 30) ∧
    (150 : ℚ) / 30 = 5 ∧ (24 : ℚ) / 5 < 5 := by
  refine ⟨?_, by norm_num, by norm_num, by norm_num⟩
  norm_num [end_time, pyRound, pyRoundInt, pyFloordiv]

/-- C8, amended: the trim end time equals
`round((⌊duration · 100 / fps⌋ · fps) / 100, 2)`; for an integer frame
rate the rounding is exact, so the end time is
`⌊duration · 100 / fps⌋ · fps / 100`, which never exceeds the duration
but is in general neither a multiple of `1 / fps` nor the largest
frame-aligned duration. -/
theorem claim_C8_amended (d : ℚ) (fps : ℕ) (hfps : 0 < fps) :
    end_time d fps = pyFloordiv (d * 100) fps * fps / 100 ∧
    end_time d fps ≤ d := by
  have hz : (pyFloordiv (d * 100) fps * fps / 100) * 10 ^ 2 =
      ((⌊d * 100 / (fps : ℚ)⌋ * fps : ℤ) : ℚ) := by
    unfold pyFloordiv
    push_cast
    ring
  have hval : end_time d fps = ((⌊d * 100 / (fps : ℚ)⌋ * fps : ℤ) : ℚ) / 10 ^ 2 := by
    unfold end_time pyRound
    rw [hz, pyRoundInt_intCast]
  have hpos : (0 : ℚ) < (fps : ℚ) := by exact_mod_cast hfps
  constructor
  · rw [hval]
    unfold pyFloordiv
    push_cast
    norm_num
  · rw [hval]
    have hle : (⌊d * 100 / (fps : ℚ)⌋ : ℚ) ≤ d * 100 / fps := Int.floor_le _
    have h1 : (⌊d * 100 / (fps : ℚ)⌋ : ℚ) * fps / 100 ≤ (d * 100 / fps) * fps / 100 := by
      gcongr
    have h2 : (d * 100 / (fps : ℚ)) * fps / 100 = d := by
      field_simp
    calc ((⌊d * 100 / (fps : ℚ)⌋ * fps : ℤ) : ℚ) / 10 ^ 2
        = (⌊d * 100 / (fps : ℚ)⌋ : ℚ) * fps / 100 := by push_cast; norm_num
      _ ≤ (d * 100 / fps) * fps / 100 := h1
      _ = d := h2

theorem claim_C8_amended_witness :
    0 < 24 ∧
    (end_time (7 / 2) ((24 : ℕ) : ℚ) =
        pyFloordiv ((7 / 2) * 100) ((24 : ℕ) : ℚ) * ((24 : ℕ) : ℚ) / 100 ∧
      end_time (7 / 2) ((24 : ℕ) : ℚ) ≤ 7 / 2) :=
  ⟨by norm_num, claim_C8_amended (7 / 2) 24 (by norm_num)⟩

/-! ## The SRT generator (`srtgen.py`)

Embeds `SRTGenerator.format_srt` and `SRTGenerator.format_timestamp`.
Timestamps are Python floats, modelled as exact rationals. -/

/-- Python `int(x)`: truncation toward zero. -/
def pyInt (q : ℚ) : ℤ := if 0 ≤ q then ⌊q⌋ else -⌊-q⌋

/-- Python float modulo `a % b` (the result takes the divisor's sign). -/
def pyMod (a b : ℚ) : ℚ := a - b * ⌊a / b⌋

/-- Python `f"{n:0wd}"`: decimal rendering of the integer, zero-padded on
the left (after the sign) up to a minimal total width `w`. -/
def zfill (w : ℕ) (n : ℤ) : List Char :=
  (if n < 0 then ['-'] else []) ++
    List.replicate (w - ((if n < 0 then 1 else 0) + (Nat.toDigits 10 n.natAbs).length)) '0' ++
    Nat.toDigits 10 n.natAbs

/-- `SRTGenerator.format_timestamp`: seconds to `hh:mm:ss,mmm` via
`int(seconds // 3600)`, `int((seconds % 3600) // 60)`, `int(seconds % 60)`
and `int((seconds % 1) * 1000)`. -/
def format_timestamp (seconds : ℚ) : List Char :=
  zfill 2 (pyInt (pyFloordiv seconds 3600)) ++ ':' ::
    (zfill 2 (pyInt (pyFloordiv (pyMod seconds 3600) 60)) ++ ':' ::
      (zfill 2 (pyInt (pyMod seconds 60)) ++ ',' ::
        zfill 3 (pyInt (pyMod seconds 1 * 1000))))

/-- One transcription segment as consumed by `format_srt`. -/
structure SrtSegment where
  start : ℚ
  «end» : ℚ
  text : List Char
  deriving DecidableEq

/-- One cue block `f"{i + 1}\n{start_time} --> {end_time}\n{text}\n\n"`,
where `i` is the 0-based `enumerate` index. -/
def srtBlock (i : ℕ) (seg : SrtSegment) : List Char :=
  Nat.toDigits 10 (i + 1) ++ '\n' ::
    (format_timestamp seg.start ++ ' ' :: '-' :: '-' :: '>' :: ' ' ::
      (format_timestamp seg.«end» ++ '\n' :: (seg.text ++ ['\n', '\n'])))

/-- `SRTGenerator.format_srt`: `srt_content` accumulated over
`enumerate(segments)` is the concatenation of the 1-indexed cue blocks. -/
def format_srt (segments : List SrtSegment) : List Char :=
  (segments.enum.map (fun p => srtBlock p.1 p.2)).flatten

/-- Modelled from the spec: the timestamp format the spec describes —
`HH:MM:SS,mmm`, hours, minutes and seconds zero-padded to two digits,
milliseconds zero-padded to three, comma as millisecond separator, with
the standard sexagesimal decomposition of the seconds value. -/
def specTimestamp (s : ℚ) : List Char :=
  zfill 2 (⌊s⌋ / 3600) ++ ':' ::
    (zfill 2 (⌊s⌋ % 3600 / 60) ++ ':' ::
      (zfill 2 (⌊s⌋ % 60) ++ ',' :: zfill 3 (⌊s * 1000⌋ % 1000)))

/-- Modelled from the spec: one cue block
`{index}\n{start --> end}\n{text}\n\n` with a 1-based index. -/
def specBlock (i : ℕ) (seg : SrtSegment) : List Char :=
  Nat.toDigits 10 (i + 1) ++ '\n' ::
    (specTimestamp seg.start ++ ' ' :: '-' :: '-' :: '>' :: ' ' ::
      (specTimestamp seg.«end» ++ '\n' :: (seg.text ++ ['\n', '\n'])))

/-- Modelled from the spec: exactly one cue block per segment, 1-indexed
in order. -/
def specSrt (segments : List SrtSegment) : List Char :=
  (segments.enum.map (fun p => specBlock p.1 p.2)).flatten

theorem pyInt_intCast (z : ℤ) : pyInt (z : ℚ) = z := by
  unfold pyInt
  by_cases h : (0 : ℚ) ≤ (z : ℚ)
  · rw [if_pos h, Int.floor_intCast]
  · rw [if_neg h, ← Int.cast_neg, Int.floor_intCast, neg_neg]

theorem pyInt_of_nonneg (q : ℚ) (h : 0 ≤ q) : pyInt q = ⌊q⌋ := if_pos h

theorem pyMod_nonneg (a b : ℚ) (hb : 0 < b) : 0 ≤ pyMod a b := by
  unfold pyMod
  have h1 : (⌊a / b⌋ : ℚ) ≤ a / b := Int.floor_le _
  have h2 : (⌊a / b⌋ : ℚ) * b ≤ (a / b) * b :=
    mul_le_mul_of_nonneg_right h1 (le_of_lt hb)
  rw [div_mul_cancel₀ a (ne_of_gt hb)] at h2
  linarith

theorem floor_div_natCast (a : ℚ) (n : ℕ) (hn : 0 < n) :
    ⌊a / (n : ℚ)⌋ = ⌊a⌋ / (n : ℤ) := by
  have hq : (0 : ℚ) < (n : ℚ) := by exact_mod_cast hn
  have hz : (0 : ℤ) < (n : ℤ) := by exact_mod_cast hn
  apply le_antisymm
  · rw [Int.le_ediv_iff_mul_le hz, Int.le_floor]
    push_cast
    have h1 : (⌊a / (n : ℚ)⌋ : ℚ) ≤ a / n := Int.floor_le _
    calc (⌊a / (n : ℚ)⌋ : ℚ) * n ≤ (a / n) * n :=
          mul_le_mul_of_nonneg_right h1 (le_of_lt hq)
      _ = a := div_mul_cancel₀ a (ne_of_gt hq)
  · rw [Int.le_floor]
    rw [le_div_iff₀ hq]
    have h2 : (⌊a⌋ / (n : ℤ)) * n ≤ ⌊a⌋ := Int.ediv_mul_le ⌊a⌋ (ne_of_gt hz)
    calc ((⌊a⌋ / (n : ℤ) : ℤ) : ℚ) * n = (((⌊a⌋ / (n : ℤ)) * n : ℤ) : ℚ) := by push_cast; ring
      _ ≤ (⌊a⌋ : ℚ) := by exact_mod_cast h2
      _ ≤ a := Int.floor_le a

theorem hours_eq (s : ℚ) : pyInt (pyFloordiv s 3600) = ⌊s⌋ / 3600 := by
  unfold pyFloordiv
  rw [pyInt_intCast]
  simpa using floor_div_natCast s 3600 (by norm_num)

theorem minutes_eq (s : ℚ) :
    pyInt (pyFloordiv (pyMod s 3600) 60) = ⌊s⌋ % 3600 / 60 := by
  unfold pyFloordiv pyMod
  rw [pyInt_intCast]
  have h1 : (s - 3600 * (⌊s / 3600⌋ : ℚ)) / 60 =
      s / 60 - ((60 * ⌊s / 3600⌋ : ℤ) : ℚ) := by push_cast; ring
  rw [h1, Int.floor_sub_int]
  have h2 : ⌊s / (60 : ℚ)⌋ = ⌊s⌋ / 60 := by
    simpa using floor_div_natCast s 60 (by norm_num)
  have h3 : ⌊s / (3600 : ℚ)⌋ = ⌊s⌋ / 3600 := by
    simpa using floor_div_natCast s 3600 (by norm_num)
  rw [h2, h3, Int.emod_def]
  have h5 : (⌊s⌋ - 3600 * (⌊s⌋ / 3600)) / 60 =
      ⌊s⌋ / 60 + -(60 * (⌊s⌋ / 3600)) := by
    rw [show ⌊s⌋ - 3600 * (⌊s⌋ / 3600) =
      ⌊s⌋ + -(60 * (⌊s⌋ / 3600)) * 60 by ring]
    exact Int.add_mul_ediv_right _ _ (by norm_num)
  rw [h5]
  ring

theorem secs_eq (s : ℚ) : pyInt (pyMod s 60) = ⌊s⌋ % 60 := by
  have hnn : 0 ≤ pyMod s 60 := pyMod_nonneg s 60 (by norm_num)
  rw [pyInt_of_nonneg _ hnn]
  unfold pyMod
  have h1 : s - 60 * (⌊s / 60⌋ : ℚ) = s - ((60 * ⌊s / 60⌋ : ℤ) : ℚ) := by
    push_cast; ring
  rw [h1, Int.floor_sub_int]
  have h2 : ⌊s / (60 : ℚ)⌋ = ⌊s⌋ / 60 := by
    simpa using floor_div_natCast s 60 (by norm_num)
  rw [h2, Int.emod_def]

theorem ms_eq (s : ℚ) : pyInt (pyMod s 1 * 1000) = ⌊s * 1000⌋ % 1000 := by
  have hnn : 0 ≤ pyMod s 1 := pyMod_nonneg s 1 (by norm_num)
  have hnn2 : 0 ≤ pyMod s 1 * 1000 := mul_nonneg hnn (by norm_num)
  rw [pyInt_of_nonneg _ hnn2]
  unfold pyMod
  have h1 : (s - 1 * (⌊s / 1⌋ : ℚ)) * 1000 = s * 1000 - ((⌊s⌋ * 1000 : ℤ) : ℚ) := by
    rw [div_one]
    push_cast
    ring
  rw [h1, Int.floor_sub_int]
  have h2 : ⌊s * 1000⌋ / 1000 = ⌊s⌋ := by
    have h3 : ⌊s * 1000 / ((1000 : ℕ) : ℚ)⌋ = ⌊s * 1000⌋ / ((1000 : ℕ) : ℤ) :=
      floor_div_natCast (s * 1000) 1000 (by norm_num)
    have h4 : s * 1000 / ((1000 : ℕ) : ℚ) = s := by
      push_cast
      field_simp
    rw [h4] at h3
    simpa using h3.symm
  rw [Int.emod_def, h2]
  ring

theorem format_timestamp_eq_spec (s : ℚ) : format_timestamp s = specTimestamp s := by
  unfold format_timestamp specTimestamp
  rw [hours_eq, minutes_eq, secs_eq, ms_eq]

/-! ## Claim about the SRT export -/

/-- C9, confirmed: the SRT export emits exactly one cue block per
segment, 1-indexed in order, shaped
`{index}\n{start --> end}\n{text}\n\n`, and the code's timestamp
formatting agrees with the spec's `HH:MM:SS,mmm` zero-padded sexagesimal
decomposition (comma before the milliseconds). -/
theorem claim_C9 (segments : List SrtSegment) :
    format_srt segments = specSrt segments := by
  unfold format_srt specSrt
  simp only [srtBlock, specBlock, format_timestamp_eq_spec]

end VideoTranscript
